import Mathlib

set_option maxRecDepth 16000

/-!
Verification development for the Steam Game Recording Exporter
(`steamexporter.py`).  The definitions below are a shallow embedding of the
`SteamGameRecordingExporter` methods.  The filesystem is modelled as finite
lists of existing directory and file paths; the external ffmpeg transcoder is
an oracle recording the outcome of each of the three `subprocess.run` calls;
the game-name resolution (Steam web API plus `GameIDs.json` cache) is an
oracle `String → String`.  Paths are joined POSIX-style with `/`, matching
`os.path.join` on the platforms the tool targets besides Windows.

String manipulation is done on the underlying `List Char` of `String` so
that every definition reduces structurally.
-/

/-- Split a character list at every occurrence of `sep`, like Python's
`str.split(sep)`: `"a_b" → ["a","b"]`, `"" → [""]`, `"_" → ["", ""]`. -/
def splitOnSep (sep : Char) : List Char → List (List Char)
  | [] => [[]]
  | c :: rest =>
    let r := splitOnSep sep rest
    if c == sep then [] :: r
    else
      match r with
      | h :: t => (c :: h) :: t
      | [] => [[c]]

/-- `Bool` test that `p` is a (list) prefix of `s`. -/
def isPrefixList : List Char → List Char → Bool
  | [], _ => true
  | _ :: _, [] => false
  | a :: p, b :: s => a == b && isPrefixList p s

/-- `Bool` test that `x` is a (list) suffix of `s`, like Python `str.endswith`. -/
def isSuffixList (x s : List Char) : Bool :=
  isPrefixList x.reverse s.reverse

/-- `os.path.basename`: the part of a path after the final slash. -/
def basenameOf (p : String) : String :=
  ⟨((splitOnSep '/' p.data).getLastD [])⟩

/-- Join path components with `/`, used to rebuild directory names. -/
def joinSlash : List (List Char) → List Char
  | [] => []
  | [x] => x
  | x :: xs => x ++ '/' :: joinSlash xs

/-- `os.path.dirname`: the part of a path before the final slash. -/
def dirnameOf (p : String) : String :=
  ⟨joinSlash ((splitOnSep '/' p.data).dropLast)⟩

/-- Index of the last `'.'` in a character list, if any. -/
def lastDotIdx : List Char → Option Nat
  | [] => none
  | c :: rest =>
    match lastDotIdx rest with
    | some i => some (i + 1)
    | none => if c == '.' then some 0 else none

/-- `os.path.splitext`: split off the extension at the last dot of the
basename, provided some character of the basename strictly before that dot
is not itself a dot (so `".bashrc"` has no extension). -/
def splitext (p : String) : String × String :=
  let b := (splitOnSep '/' p.data).getLastD []
  match lastDotIdx b with
  | none => (p, "")
  | some i =>
    if (b.take i).any (fun c => !(c == '.')) then
      (⟨p.data.take (p.data.length - (b.length - i))⟩,
       ⟨p.data.drop (p.data.length - (b.length - i))⟩)
    else (p, "")

/-- The filesystem: the sets of currently existing directories and files,
as finite lists of absolute paths. -/
structure FS where
  dirs : List String
  files : List String
deriving DecidableEq

/-- `os.path.exists`. -/
def FS.pexists (fs : FS) (p : String) : Bool :=
  fs.files.contains p || fs.dirs.contains p

/-- Creating a file (e.g. ffmpeg writing the final output). -/
def FS.addFile (fs : FS) (p : String) : FS :=
  ⟨fs.dirs, p :: fs.files⟩

/-- `os.makedirs(p, exist_ok=True)`. -/
def FS.addDir (fs : FS) (p : String) : FS :=
  if fs.dirs.contains p then fs else ⟨p :: fs.dirs, fs.files⟩

/-- Is path `p` strictly inside directory `folder`? -/
def isUnder (folder p : String) : Bool :=
  isPrefixList (folder.data ++ ['/']) p.data

/-- `shutil.rmtree`: remove a directory and everything beneath it. -/
def FS.removeTree (fs : FS) (folder : String) : FS :=
  ⟨fs.dirs.filter (fun d => !(d == folder || isUnder folder d)),
   fs.files.filter (fun f => !(isUnder folder f))⟩

/-- A `datetime` value as validated by `datetime.strptime`. -/
structure Timestamp where
  year : Nat
  month : Nat
  day : Nat
  hour : Nat
  minute : Nat
  second : Nat
deriving DecidableEq

/-- Decimal value of a digit character. -/
def digitVal (c : Char) : Nat := c.toNat - 48

/-- Gregorian leap-year rule used by `datetime`. -/
def isLeapYear (y : Nat) : Bool :=
  y % 4 == 0 && (y % 100 != 0 || y % 400 == 0)

/-- Number of days of month `m` in year `y`. -/
def daysInMonth (y m : Nat) : Nat :=
  if [1, 3, 5, 7, 8, 10, 12].contains m then 31
  else if [4, 6, 9, 11].contains m then 30
  else if isLeapYear y then 29 else 28

/-- CPython `_strptime` field pattern `%Y`, regex `\d\d\d\d`: exactly four
digits.  Each `alts` function lists every way its field's regex alternation
can match a front segment of the input, as `(value, rest)` pairs in the
alternation's preference order. -/
def altsY : List Char → List (Nat × List Char)
  | a :: b :: c :: d :: rest =>
    if a.isDigit && b.isDigit && c.isDigit && d.isDigit then
      [(digitVal a * 1000 + digitVal b * 100 + digitVal c * 10 + digitVal d, rest)]
    else []
  | _ => []

/-- CPython field pattern `%m`, regex `1[0-2]|0[1-9]|[1-9]`. -/
def altsMonth (cs : List Char) : List (Nat × List Char) :=
  (match cs with
   | a :: b :: rest =>
     if a == '1' && b.isDigit && digitVal b ≤ 2 then [(10 + digitVal b, rest)] else []
   | _ => []) ++
  (match cs with
   | a :: b :: rest =>
     if a == '0' && b.isDigit && 1 ≤ digitVal b then [(digitVal b, rest)] else []
   | _ => []) ++
  (match cs with
   | a :: rest => if a.isDigit && 1 ≤ digitVal a then [(digitVal a, rest)] else []
   | _ => [])

/-- CPython field pattern `%d`, regex `3[01]|[12]\d|0[1-9]|[1-9]`. -/
def altsDay (cs : List Char) : List (Nat × List Char) :=
  (match cs with
   | a :: b :: rest =>
     if a == '3' && b.isDigit && digitVal b ≤ 1 then [(30 + digitVal b, rest)] else []
   | _ => []) ++
  (match cs with
   | a :: b :: rest =>
     if (a == '1' || a == '2') && b.isDigit then
       [(10 * digitVal a + digitVal b, rest)]
     else []
   | _ => []) ++
  (match cs with
   | a :: b :: rest =>
     if a == '0' && b.isDigit && 1 ≤ digitVal b then [(digitVal b, rest)] else []
   | _ => []) ++
  (match cs with
   | a :: rest => if a.isDigit && 1 ≤ digitVal a then [(digitVal a, rest)] else []
   | _ => [])

/-- CPython field pattern `%H`, regex `2[0-3]|[0-1]\d|\d`. -/
def altsHour (cs : List Char) : List (Nat × List Char) :=
  (match cs with
   | a :: b :: rest =>
     if a == '2' && b.isDigit && digitVal b ≤ 3 then [(20 + digitVal b, rest)] else []
   | _ => []) ++
  (match cs with
   | a :: b :: rest =>
     if (a == '0' || a == '1') && b.isDigit then
       [(10 * digitVal a + digitVal b, rest)]
     else []
   | _ => []) ++
  (match cs with
   | a :: rest => if a.isDigit then [(digitVal a, rest)] else []
   | _ => [])

/-- CPython field pattern `%M`, regex `[0-5]\d|\d`. -/
def altsMin (cs : List Char) : List (Nat × List Char) :=
  (match cs with
   | a :: b :: rest =>
     if a.isDigit && digitVal a ≤ 5 && b.isDigit then
       [(10 * digitVal a + digitVal b, rest)]
     else []
   | _ => []) ++
  (match cs with
   | a :: rest => if a.isDigit then [(digitVal a, rest)] else []
   | _ => [])

/-- CPython field pattern `%S`, regex `6[0-1]|[0-5]\d|\d` (the leap-second
spellings 60 and 61 are accepted by the regex and rejected later by the
`datetime` constructor). -/
def altsSec (cs : List Char) : List (Nat × List Char) :=
  (match cs with
   | a :: b :: rest =>
     if a == '6' && b.isDigit && digitVal b ≤ 1 then [(60 + digitVal b, rest)] else []
   | _ => []) ++
  (match cs with
   | a :: b :: rest =>
     if a.isDigit && digitVal a ≤ 5 && b.isDigit then
       [(10 * digitVal a + digitVal b, rest)]
     else []
   | _ => []) ++
  (match cs with
   | a :: rest => if a.isDigit then [(digitVal a, rest)] else []
   | _ => [])

/-- Ordered choice with backtracking: try each alternative in order,
yielding the first one whose continuation succeeds.  This is the regex
engine's leftmost-biased depth-first search. -/
def firstSome {α : Type} : List (Nat × List Char) → (Nat → List Char → Option α) → Option α
  | [], _ => none
  | (v, r) :: more, k =>
    match k v r with
    | some x => some x
    | none => firstSome more k

/-- The first match of the compiled `%Y%m%d%H%M%S` regex against a front
segment of the input, exactly as `re.match` finds it: fields in order, each
trying its alternation's branches leftmost-first with backtracking, and the
innermost continuation always succeeding, so the overall first pattern
match is returned together with the unconsumed remainder (the pattern has
no end anchor). -/
def strptimeMatch (cs : List Char) :
    Option ((Nat × Nat × Nat × Nat × Nat × Nat) × List Char) :=
  firstSome (altsY cs) fun y r1 =>
  firstSome (altsMonth r1) fun mo r2 =>
  firstSome (altsDay r2) fun d r3 =>
  firstSome (altsHour r3) fun h r4 =>
  firstSome (altsMin r4) fun mi r5 =>
  firstSome (altsSec r5) fun se r6 =>
  some ((y, mo, d, h, mi, se), r6)

/-- Model of CPython `datetime.strptime(s, "%Y%m%d%H%M%S")`: match the
compiled field regexes with backtracking, fail if the first match leaves
unconverted data, then validate the fields as the `datetime` constructor
does (`year >= 1`, day within the month, `second <= 59`). -/
def strptimeYmdHMS (s : String) : Option Timestamp :=
  match strptimeMatch s.data with
  | none => none
  | some ((y, mo, d, h, mi, se), rest) =>
    if rest.isEmpty then
      if 1 ≤ y && y ≤ 9999 && 1 ≤ mo && mo ≤ 12 && 1 ≤ d && d ≤ daysInMonth y mo
          && h ≤ 23 && mi ≤ 59 && se ≤ 59 then
        some ⟨y, mo, d, h, mi, se⟩
      else none
    else none

/-- Zero-pad to two digits. -/
def pad2 (n : Nat) : String :=
  if n < 10 then "0" ++ toString n else toString n

/-- Zero-pad to four digits. -/
def pad4 (n : Nat) : String :=
  if n < 10 then "000" ++ toString n
  else if n < 100 then "00" ++ toString n
  else if n < 1000 then "0" ++ toString n
  else toString n

/-- `dt_obj.strftime("%Y-%m-%d_%H-%M-%S")`. -/
def fmtTimestamp (t : Timestamp) : String :=
  pad4 t.year ++ "-" ++ pad2 t.month ++ "-" ++ pad2 t.day ++ "_"
    ++ pad2 t.hour ++ "-" ++ pad2 t.minute ++ "-" ++ pad2 t.second

/-- `os.path.basename(folder).split('_')`, the underscore tokens of a clip
folder name. -/
def folderParts (clipFolder : String) : List String :=
  (splitOnSep '_' ((splitOnSep '/' clipFolder.data).getLastD [])).map
    (fun cs => (⟨cs⟩ : String))

/-- The `formatted_date` computed inside `get_expected_output_filename` and
`process_single_clip`: the parsed timestamp rendered as
`%Y-%m-%d_%H-%M-%S`, or `"UnknownDate"` when the name does not parse. -/
def formattedDateOf (p : String) : String :=
  let parts := folderParts p
  if 3 ≤ parts.length then
    match strptimeYmdHMS (parts.dropLast.getLastD "" ++ parts.getLastD "") with
    | some t => fmtTimestamp t
    | none => "UnknownDate"
  else "UnknownDate"

/-- `parts[1] if len(parts) >= 2 else "Unknown"`: the game id token of a
clip folder name. -/
def gameIdOfParts : List String → String
  | _ :: g :: _ => g
  | _ => "Unknown"

/-- The `base_filename` string `f"{game_name}_{formatted_date}"`, where the
game name comes from the external name-resolution oracle `r`
(`get_game_name`). -/
def outputBaseName (r : String → String) (clipFolder : String) : String :=
  r (gameIdOfParts (folderParts clipFolder)) ++ "_" ++ formattedDateOf clipFolder

/-- `get_expected_output_filename`: the canonical (unsanitized, unsuffixed)
output path for a clip. -/
def get_expected_output_filename (r : String → String) (clipFolder outputDir : String) : String :=
  outputDir ++ "/" ++ outputBaseName r clipFolder ++ ".mp4"

/-- The character set `'<>:"|?*\\/ '` replaced by `sanitize_filename`. -/
def invalidChars : List Char := ['<', '>', ':', '"', '|', '?', '*', '\\', '/', ' ']

/-- One `str.replace(a, b)` pass for single characters. -/
def replaceChar (a b : Char) (cs : List Char) : List Char :=
  cs.map (fun c => if c == a then b else c)

/-- The `for char in invalid_chars: sanitized = sanitized.replace(char, '_')`
loop of `sanitize_filename`. -/
def replaceInvalid (cs : List Char) : List Char :=
  invalidChars.foldl (fun s c => replaceChar c '_' s) cs

/-- One non-overlapping left-to-right `str.replace('__', '_')` pass. -/
def collapseOnce : List Char → List Char
  | [] => []
  | [c] => [c]
  | a :: b :: t =>
    if a == '_' && b == '_' then '_' :: collapseOnce t
    else a :: collapseOnce (b :: t)

/-- `'__' in s`: does the list contain two adjacent underscores? -/
def hasDD : List Char → Bool
  | [] => false
  | [_] => false
  | a :: b :: t => (a == '_' && b == '_') || hasDD (b :: t)

/-- The `while '__' in sanitized:` loop, with explicit fuel; each iteration
shortens the list, so fuel equal to the length always suffices. -/
def collapseAll : Nat → List Char → List Char
  | 0, cs => cs
  | fuel + 1, cs => if hasDD cs then collapseAll fuel (collapseOnce cs) else cs

/-- Remove a maximal trailing run of underscores. -/
def dropTrailingUnd : List Char → List Char
  | [] => []
  | c :: rest =>
    let r := dropTrailingUnd rest
    if r.isEmpty && c == '_' then [] else c :: r

/-- Python `str.strip('_')`: remove leading and trailing underscores. -/
def stripUnd (cs : List Char) : List Char :=
  dropTrailingUnd (cs.dropWhile (fun c => c == '_'))

/-- `sanitize_filename`: replace the invalid characters by `'_'`, collapse
runs of underscores, then strip leading/trailing underscores. -/
def sanitize_filename (s : String) : String :=
  let r := replaceInvalid s.data
  ⟨stripUnd (collapseAll r.length r)⟩

/-- The numbered-variant filename `f"{base_name}_{counter}{ext}"`. -/
def numberedVariant (base ext : String) (counter : Nat) : String :=
  base ++ "_" ++ toString counter ++ ext

/-- The `while os.path.exists(unique_filename):` loop of
`get_unique_filename`, with explicit fuel for the unbounded search;
`none` models the (for a finite filesystem unreachable) case that the loop
does not finish within `fuel` further iterations. -/
def uniqueLoop (fs : FS) (dir base ext : String) : Nat → Nat → String → Option String
  | 0, _, u => if fs.pexists u then none else some u
  | fuel + 1, counter, u =>
    if fs.pexists u then
      uniqueLoop fs dir base ext fuel (counter + 1)
        (dir ++ "/" ++ numberedVariant base ext counter)
    else some u

/-- `get_unique_filename`: sanitize, then append `_1`, `_2`, … before the
extension until the path does not exist. -/
def get_unique_filename (fs : FS) (dir filename : String) (fuel : Nat) : Option String :=
  let f := sanitize_filename filename
  uniqueLoop fs dir (splitext f).1 (splitext f).2 fuel 1 (dir ++ "/" ++ f)

/-- The `while counter <= 100:` probe loop of `check_converted_exists`. -/
def probeFrom (fs : FS) (base ext : String) : Nat → Nat → Option String
  | 0, _ => none
  | fuel + 1, counter =>
    let nf := numberedVariant base ext counter
    if fs.pexists nf then some nf else probeFrom fs base ext fuel (counter + 1)

/-- `check_converted_exists`: the expected path first, then the numbered
variants `_1` … `_100`, returning the first that exists. -/
def check_converted_exists (fs : FS) (r : String → String) (clipFolder outputDir : String) :
    Option String :=
  let expected := get_expected_output_filename r clipFolder outputDir
  if fs.pexists expected then some expected
  else probeFrom fs (splitext expected).1 (splitext expected).2 100 1

/-- `find_session_mpd`: every `session.mpd` file in the clip folder's
subtree, in filesystem (walk) order. -/
def find_session_mpd (fs : FS) (clipFolder : String) : List String :=
  fs.files.filter (fun p => isUnder clipFolder p && basenameOf p == "session.mpd")

/-- Does a walked file name mark a Steam clip folder
(`f.endswith('.m4s') or f == 'session.mpd'`)? -/
def isClipMarker (p : String) : Bool :=
  isSuffixList ".m4s".data (basenameOf p).data || basenameOf p == "session.mpd"

/-- `delete_source_folder`: refuse to remove a folder whose subtree has no
`.m4s` or `session.mpd` file; treat an already-absent folder as success.
Returns the filesystem afterwards and the reported `bool`. -/
def delete_source_folder (fs : FS) (clipFolder : String) : FS × Bool :=
  if fs.pexists clipFolder then
    if (fs.files.filter (fun p => isUnder clipFolder p)).any isClipMarker then
      (fs.removeTree clipFolder, true)
    else (fs, false)
  else (fs, true)

/-- Observable actions of the pipeline, for the batch ordering claims:
a conversion task returning its outcome, and a source-folder deletion
attempt. -/
inductive Event
  | convReturn (clipFolder : String)
  | delSource (clipFolder : String)
deriving DecidableEq

instance : DecidableEq (Except String Unit) := fun
  | .ok (), .ok () => isTrue rfl
  | .ok (), .error _ => isFalse (by simp)
  | .error _, .ok () => isFalse (by simp)
  | .error a, .error b =>
    if h : a = b then isTrue (by rw [h]) else isFalse (by simp [h])

/-- Outcome oracle for the three `subprocess.run` ffmpeg invocations of one
conversion (video concat, audio concat, final mux), plus whether the mux
call actually materialises its output file (the code re-checks
`os.path.exists` afterwards). -/
structure Transcoder where
  videoConcat : Except String Unit
  audioConcat : Except String Unit
  mux : Except String Unit
  muxCreatesOutput : Bool
deriving DecidableEq

/-- A transcoder on which every call succeeds and produces its output. -/
def tcOk : Transcoder := ⟨.ok (), .ok (), .ok (), true⟩

/-- Result of one `process_single_clip` call: the returned
`(success, message)` pair, the filesystem afterwards, the deletion attempts
performed inside the call, and how many transcoder invocations ran.
Temporary staging files are created and removed again inside the call's
`finally` block, so they do not appear in the resulting filesystem. -/
structure ConvOutcome where
  ok : Bool
  msg : String
  fs : FS
  events : List Event
  calls : Nat
deriving DecidableEq

/-- `process_single_clip`: short-circuit on an already-existing output
(deleting the source at once when `deleteSource` is set), then verify
manifests and initialization segments, stage and transcode, and write the
final output under a fresh unique name. -/
def process_single_clip (fs : FS) (r : String → String) (tc : Transcoder)
    (clipFolder outputDir : String) (deleteSource : Bool) (fuel : Nat) : ConvOutcome :=
  match check_converted_exists fs r clipFolder outputDir with
  | some existing =>
    if deleteSource then
      if (delete_source_folder fs clipFolder).2 then
        ⟨true, "Already converted (deleted source): " ++ basenameOf existing,
         (delete_source_folder fs clipFolder).1, [Event.delSource clipFolder], 0⟩
      else
        ⟨true, "Already converted (failed to delete source): " ++ basenameOf existing,
         (delete_source_folder fs clipFolder).1, [Event.delSource clipFolder], 0⟩
    else ⟨true, "Already converted (skipped): " ++ basenameOf existing, fs, [], 0⟩
  | none =>
    let mpds := find_session_mpd fs clipFolder
    if mpds.isEmpty then
      ⟨false, "No session.mpd files found in " ++ clipFolder, fs, [], 0⟩
    else
      match (mpds.map dirnameOf).find?
          (fun d => !(fs.pexists (d ++ "/init-stream0.m4s")
                      && fs.pexists (d ++ "/init-stream1.m4s"))) with
      | some d => ⟨false, "Missing initialization files in " ++ d, fs, [], 0⟩
      | none =>
        match tc.videoConcat with
        | .error e =>
          ⟨false, "FFmpeg error processing " ++ clipFolder ++ ": " ++ e, fs, [], 1⟩
        | .ok _ =>
          match tc.audioConcat with
          | .error e =>
            ⟨false, "FFmpeg error processing " ++ clipFolder ++ ": " ++ e, fs, [], 2⟩
          | .ok _ =>
            match get_unique_filename fs outputDir (outputBaseName r clipFolder ++ ".mp4") fuel with
            | none => ⟨false, "unique filename search exhausted", fs, [], 2⟩
            | some outputFile =>
              match tc.mux with
              | .error e =>
                ⟨false, "FFmpeg error processing " ++ clipFolder ++ ": " ++ e, fs, [], 3⟩
              | .ok _ =>
                if tc.muxCreatesOutput then
                  ⟨true, "Successfully converted: " ++ basenameOf outputFile,
                   fs.addFile outputFile, [], 3⟩
                else
                  ⟨false, "Output file was not created: " ++ basenameOf outputFile, fs, [], 3⟩

/-- Aggregate result of a batch run (`results` dict of
`process_clips_batch`). -/
structure BatchResult where
  successful : List String
  failed : List (String × String)
  total : Nat
deriving DecidableEq

/-- The `as_completed` collection loop of `process_clips_batch`, serialised
in completion order: the input list is the submitted clip folders in the
(arbitrary) order in which their futures complete, and the shared
filesystem is threaded through them.  Returns the filesystem, the emitted
events, and the `successful` and `failed` lists in completion order. -/
def runTasksLoop (r : String → String) (tc : Transcoder) (outputDir : String)
    (deleteSource : Bool) (fuel : Nat) :
    FS → List String → FS × List Event × List String × List (String × String)
  | fs, [] => (fs, [], [], [])
  | fs, c :: rest =>
    let o := process_single_clip fs r tc c outputDir deleteSource fuel
    let t := runTasksLoop r tc outputDir deleteSource fuel o.fs rest
    (t.1, o.events ++ Event.convReturn c :: t.2.1,
     if o.ok then c :: t.2.2.1 else t.2.2.1,
     if o.ok then t.2.2.2 else (c, o.msg) :: t.2.2.2)

/-- The deferred deletion pass over `results['successful']`: one
`delete_source_folder` call per successful clip, collecting the folders
whose deletion reported success. -/
def deleteLoop : FS → List String → FS × List Event × List String
  | fs, [] => (fs, [], [])
  | fs, c :: rest =>
    let p := delete_source_folder fs c
    let q := deleteLoop p.1 rest
    (q.1, Event.delSource c :: q.2.1, if p.2 then c :: q.2.2 else q.2.2)

/-- `process_clips_batch`: create the output directory, run one conversion
task per clip, then, if requested and anything succeeded, delete the
source folders of the successful clips.  Returns the final filesystem, the
full event trace, and the batch result. -/
def process_clips_batch (r : String → String) (tc : Transcoder) (outputDir : String)
    (deleteSource : Bool) (fuel : Nat) (fs : FS) (ordered : List String) :
    FS × List Event × BatchResult :=
  let t := runTasksLoop r tc outputDir deleteSource fuel (fs.addDir outputDir) ordered
  let res : BatchResult := ⟨t.2.2.1, t.2.2.2, ordered.length⟩
  if deleteSource && !res.successful.isEmpty then
    let d := deleteLoop t.1 res.successful
    (d.1, t.2.1 ++ d.2.1, res)
  else (t.1, t.2.1, res)

/-- The result-collection loop of `process_clips_batch` over synthetic
per-task outcomes: the input pairs each submitted clip folder (in future
completion order) with either its `(success, message)` return value or the
text of an exception raised out of `future.result()`. -/
def aggregateOutcomes : List (String × Except String (Bool × String)) → BatchResult
  | [] => ⟨[], [], 0⟩
  | (c, r) :: rest =>
    let b := aggregateOutcomes rest
    match r with
    | .ok (true, _) => ⟨c :: b.successful, b.failed, b.total + 1⟩
    | .ok (false, m) => ⟨b.successful, (c, m) :: b.failed, b.total + 1⟩
    | .error e => ⟨b.successful, (c, "Unexpected error: " ++ e) :: b.failed, b.total + 1⟩

/-- The guarded deferred-deletion phase
(`if delete_source and results['successful']:`). -/
def batchDeletePhase (fs : FS) (res : BatchResult) (deleteSource : Bool) :
    FS × List Event × List String :=
  if deleteSource && !res.successful.isEmpty then deleteLoop fs res.successful
  else (fs, [], [])

/-- The property claimed of a batch trace: once any source-folder deletion
has happened, no conversion task returns afterwards (every deletion waits
for the batch barrier). -/
def barrierOk : List Event → Bool
  | [] => true
  | Event.convReturn _ :: rest => barrierOk rest
  | Event.delSource _ :: rest =>
    rest.all (fun e => match e with | Event.delSource _ => true | _ => false)

/-- The barrier discipline the code actually implements, relative to the
final `successful` set `su`: the trace ends with exactly the deferred
deletions `su.map delSource`, and before that tail every event is either a
conversion return or a deletion of a clip that ends up in `su` (the
in-task deletion of an already-converted clip). -/
def batchBarrier (tr : List Event) (su : List String) : Bool :=
  (tr.drop (tr.length - su.length) == su.map Event.delSource)
    && (tr.take (tr.length - su.length)).all
        (fun e => match e with
          | Event.convReturn _ => true
          | Event.delSource c => su.contains c)

/-- The candidate output paths `get_unique_filename` walks through, in
order: the sanitized unsuffixed name, then the `_1`, `_2`, … variants. -/
def uniqueCand (dir filename : String) : Nat → String
  | 0 => dir ++ "/" ++ sanitize_filename filename
  | k + 1 =>
    dir ++ "/" ++ numberedVariant (splitext (sanitize_filename filename)).1
      (splitext (sanitize_filename filename)).2 (k + 1)

/-- The 101 candidate paths `check_converted_exists` probes, in order. -/
def clipCandidates (r : String → String) (clipFolder outputDir : String) : List String :=
  get_expected_output_filename r clipFolder outputDir
    :: (List.range 100).map
        (fun i =>
          numberedVariant (splitext (get_expected_output_filename r clipFolder outputDir)).1
            (splitext (get_expected_output_filename r clipFolder outputDir)).2 (1 + i))

/-- Name resolver mapping Steam app id 570 to its display name. -/
def rDota : String → String := fun g => if g == "570" then "Dota 2" else g

/-- A filesystem holding one intact, not yet converted clip recording. -/
def fsClip : FS :=
  ⟨["o", "clip_570_20240101_153000", "clip_570_20240101_153000/data"],
   ["clip_570_20240101_153000/data/session.mpd",
    "clip_570_20240101_153000/data/init-stream0.m4s",
    "clip_570_20240101_153000/data/init-stream1.m4s"]⟩

/-- A filesystem holding one already-converted clip `A` (its output exists)
next to a second, broken clip folder `B_7`. -/
def fsTwoClips : FS :=
  ⟨["A", "out"], ["A/session.mpd", "out/Unknown_UnknownDate.mp4"]⟩

/-- C8 (counterexample): a clip whose only manifest directory is missing
both init segments is nevertheless reported as a success (not `Failed`)
when a converted output for it already exists, because the
already-converted short-circuit runs before the init check. -/
theorem c8_preexisting_output_counterexample :
    (process_single_clip ⟨[], ["c/a/session.mpd", "o/Unknown_UnknownDate.mp4"]⟩
        (fun g => g) tcOk "c" "o" false 0).ok = true
    ∧ (process_single_clip ⟨[], ["c/a/session.mpd", "o/Unknown_UnknownDate.mp4"]⟩
        (fun g => g) tcOk "c" "o" false 0).msg
        = "Already converted (skipped): Unknown_UnknownDate.mp4" := by
  decide

/-- C8 (amended): when no converted output already exists, a clip with a
manifest directory missing `init-stream0.m4s` or `init-stream1.m4s` yields
a `Failed` outcome naming the first such manifest directory, with no
transcoder invocation, no filesystem change and no deletion attempt. -/
theorem c8_missing_init_failure (fs : FS) (r : String → String) (tc : Transcoder)
    (clip out : String) (dsrc : Bool) (fuel : Nat) (d : String)
    (hchk : check_converted_exists fs r clip out = none)
    (hfind : ((find_session_mpd fs clip).map dirnameOf).find?
        (fun dd => !(fs.pexists (dd ++ "/init-stream0.m4s")
                     && fs.pexists (dd ++ "/init-stream1.m4s"))) = some d) :
    process_single_clip fs r tc clip out dsrc fuel
      = ⟨false, "Missing initialization files in " ++ d, fs, [], 0⟩ := by
  have hne : (find_session_mpd fs clip).isEmpty = false := by
    cases hmp : find_session_mpd fs clip with
    | nil => rw [hmp] at hfind; simp at hfind
    | cons a t => rfl
  simp only [process_single_clip, hchk, hne, hfind, Bool.false_eq_true, if_false]

/-- C8 (witness): the amended failure at a concrete clip whose manifest
directory `c/a` has a `session.mpd` but no init segments. -/
theorem c8_missing_init_failure_witness :
    process_single_clip ⟨[], ["c/a/session.mpd"]⟩ (fun g => g) tcOk "c" "o" false 0
      = ⟨false, "Missing initialization files in " ++ "c/a", ⟨[], ["c/a/session.mpd"]⟩, [], 0⟩ :=
  c8_missing_init_failure ⟨[], ["c/a/session.mpd"]⟩ (fun g => g) tcOk "c" "o" false 0 "c/a"
    (by decide) (by decide)

/-- C9: `delete_source_folder` refuses (returns `false`, leaving the
filesystem unchanged) for an existing folder whose subtree contains no
`.m4s` or `session.mpd` file, and reports success (`true`) for a folder
that no longer exists. -/
theorem c9_delete_source_safety (fs : FS) (folder : String) :
    (fs.pexists folder = true →
      (fs.files.filter (fun p => isUnder folder p)).any isClipMarker = false →
      delete_source_folder fs folder = (fs, false))
    ∧ (fs.pexists folder = false → delete_source_folder fs folder = (fs, true)) := by
  constructor
  · intro h1 h2
    simp [delete_source_folder, h1, h2]
  · intro h1
    simp [delete_source_folder, h1]

/-- C9 (witness): refusal on an existing marker-free folder, success on an
absent folder. -/
theorem c9_delete_source_safety_witness :
    delete_source_folder ⟨["c"], ["c/notes.txt"]⟩ "c" = (⟨["c"], ["c/notes.txt"]⟩, false)
    ∧ delete_source_folder ⟨[], []⟩ "c" = (⟨[], []⟩, true) :=
  ⟨(c9_delete_source_safety ⟨["c"], ["c/notes.txt"]⟩ "c").1 (by decide) (by decide),
   (c9_delete_source_safety ⟨[], []⟩ "c").2 (by decide)⟩

/-- C10: on an already-converted clip with `delete_source` set,
`process_single_clip` returns success whether or not the source deletion
succeeds; a deletion failure only switches the message to the
`failed to delete source` variant. -/
theorem c10_delete_failure_still_success (fs : FS) (r : String → String) (tc : Transcoder)
    (clip out : String) (fuel : Nat) (f : String)
    (hchk : check_converted_exists fs r clip out = some f) :
    process_single_clip fs r tc clip out true fuel
      = ⟨true,
         (if (delete_source_folder fs clip).2 then "Already converted (deleted source): "
          else "Already converted (failed to delete source): ") ++ basenameOf f,
         (delete_source_folder fs clip).1, [Event.delSource clip], 0⟩ := by
  simp only [process_single_clip, hchk, if_true]
  by_cases hd : (delete_source_folder fs clip).2 <;> simp [hd]

/-- C10 (witness): concrete already-converted clip whose folder contains no
marker files, so the deletion attempt fails, yet the outcome is success
with the `failed to delete source` message. -/
theorem c10_delete_failure_still_success_witness :
    process_single_clip ⟨["c"], ["o/Unknown_UnknownDate.mp4"]⟩ (fun g => g) tcOk "c" "o" true 0
      = ⟨true,
         (if (delete_source_folder ⟨["c"], ["o/Unknown_UnknownDate.mp4"]⟩ "c").2 then
            "Already converted (deleted source): "
          else "Already converted (failed to delete source): ")
           ++ basenameOf "o/Unknown_UnknownDate.mp4",
         (delete_source_folder ⟨["c"], ["o/Unknown_UnknownDate.mp4"]⟩ "c").1,
         [Event.delSource "c"], 0⟩ :=
  c10_delete_failure_still_success ⟨["c"], ["o/Unknown_UnknownDate.mp4"]⟩ (fun g => g) tcOk
    "c" "o" 0 "o/Unknown_UnknownDate.mp4" (by decide)

/-- C1 (counterexample): in a batch with `delete_source` set whose first
completing clip `A` is already converted, `process_single_clip` deletes
`A`'s source folder inside the worker, before the second clip's conversion
has returned — the trace has a deletion event followed by a conversion
return, violating the claimed barrier. -/
theorem c1_early_deletion_counterexample :
    barrierOk (process_clips_batch (fun g => g) tcOk "out" true 3 fsTwoClips ["A", "B_7"]).2.1
      = false := by
  decide

/-- C3 (counterexample): submitting the same folder path twice with one
success and one failure puts `A` into both `successful` and `failed`; the
deferred deletion pass, driven by `successful` alone, then deletes the
source folder of a clip that is in `failed`. -/
theorem c3_duplicate_path_counterexample :
    ((aggregateOutcomes [("A", .ok (true, "converted")),
        ("A", .ok (false, "ffmpeg failed"))]).failed.map Prod.fst).contains "A" = true
    ∧ (batchDeletePhase ⟨["A"], ["A/session.mpd"]⟩
        (aggregateOutcomes [("A", .ok (true, "converted")),
          ("A", .ok (false, "ffmpeg failed"))]) true).2.2.contains "A" = true
    ∧ (batchDeletePhase ⟨["A"], ["A/session.mpd"]⟩
        (aggregateOutcomes [("A", .ok (true, "converted")),
          ("A", .ok (false, "ffmpeg failed"))]) true).1.dirs.contains "A" = false := by
  decide

/-- C4 (code bug): `check_converted_exists` probes the unsanitized expected
name while the converter writes a sanitized one, so for a game name
containing a space ("Dota 2") a second run of `process_single_clip` on the
very same clip and output directory does not short-circuit: it invokes the
transcoder again (3 calls) and creates a second output file
`Dota_2_2024-01-01_15-30-00_1.mp4` instead of reporting
`Already converted`. -/
theorem c4_idempotence_broken_by_unsanitized_check :
    (process_single_clip fsClip rDota tcOk "clip_570_20240101_153000" "o" false 5).ok = true
    ∧ (process_single_clip fsClip rDota tcOk "clip_570_20240101_153000" "o" false 5).msg
        = "Successfully converted: Dota_2_2024-01-01_15-30-00.mp4"
    ∧ (process_single_clip
        (process_single_clip fsClip rDota tcOk "clip_570_20240101_153000" "o" false 5).fs
        rDota tcOk "clip_570_20240101_153000" "o" false 5).ok = true
    ∧ (process_single_clip
        (process_single_clip fsClip rDota tcOk "clip_570_20240101_153000" "o" false 5).fs
        rDota tcOk "clip_570_20240101_153000" "o" false 5).msg
        = "Successfully converted: Dota_2_2024-01-01_15-30-00_1.mp4"
    ∧ (process_single_clip
        (process_single_clip fsClip rDota tcOk "clip_570_20240101_153000" "o" false 5).fs
        rDota tcOk "clip_570_20240101_153000" "o" false 5).calls = 3
    ∧ (process_single_clip
        (process_single_clip fsClip rDota tcOk "clip_570_20240101_153000" "o" false 5).fs
        rDota tcOk "clip_570_20240101_153000" "o" false 5).fs.files.length
        = fsClip.files.length + 2 := by
  decide

theorem probeFrom_eq_find (fs : FS) (base ext : String) :
    ∀ (fuel c : Nat),
      probeFrom fs base ext fuel c
        = ((List.range fuel).map (fun i => numberedVariant base ext (c + i))).find? fs.pexists := by
  intro fuel
  induction fuel with
  | zero => intro c; simp [probeFrom]
  | succ n ih =>
    intro c
    rw [List.range_succ_eq_map]
    simp only [List.map_cons, List.map_map, Nat.add_zero]
    by_cases h : fs.pexists (numberedVariant base ext c)
    · rw [List.find?_cons_of_pos _ h]
      simp [probeFrom, h]
    · rw [List.find?_cons_of_neg _ h]
      simp only [probeFrom, h, if_false, Bool.false_eq_true]
      rw [ih (c + 1)]
      congr 1
      apply List.map_congr_left
      intro i _
      simp only [Function.comp_apply]
      congr 1
      omega

/-- C5: `check_converted_exists` returns the first existing path among the
expected output path followed by the numbered variants `_1` … `_100`, in
that order, and `none` when none of those 101 candidates exists — it never
probes past the 100th variant. -/
theorem c5_check_probe_order (fs : FS) (r : String → String) (clip out : String) :
    check_converted_exists fs r clip out = (clipCandidates r clip out).find? fs.pexists := by
  unfold check_converted_exists clipCandidates
  by_cases h : fs.pexists (get_expected_output_filename r clip out)
  · rw [if_pos h, List.find?_cons_of_pos _ h]
  · rw [if_neg h, List.find?_cons_of_neg _ h, probeFrom_eq_find]

theorem uniqueLoop_some_not_exists (fs : FS) (dir b e u : String) (fuel c : Nat)
    (h : fs.pexists u = false) : uniqueLoop fs dir b e fuel c u = some u := by
  cases fuel <;> simp [uniqueLoop, h]

theorem uniqueLoop_sound (fs : FS) (dir b e : String) :
    ∀ (fuel c : Nat) (u res : String),
      uniqueLoop fs dir b e fuel c u = some res →
      (fs.pexists u = false ∧ res = u)
      ∨ (fs.pexists u = true
         ∧ ∃ i, res = dir ++ "/" ++ numberedVariant b e (c + i)
             ∧ fs.pexists (dir ++ "/" ++ numberedVariant b e (c + i)) = false
             ∧ ∀ j < i, fs.pexists (dir ++ "/" ++ numberedVariant b e (c + j)) = true) := by
  intro fuel
  induction fuel with
  | zero =>
    intro c u res h
    by_cases hu : fs.pexists u
    · simp [uniqueLoop, hu] at h
    · simp only [uniqueLoop, hu, Bool.false_eq_true, if_false, Option.some.injEq] at h
      exact Or.inl ⟨by simpa using hu, h.symm⟩
  | succ n ih =>
    intro c u res h
    by_cases hu : fs.pexists u
    · simp only [uniqueLoop, hu, if_true] at h
      rcases ih (c + 1) _ res h with ⟨h1, h2⟩ | ⟨h1, i, h2, h3, h4⟩
      · refine Or.inr ⟨hu, 0, ?_, ?_, by omega⟩
        · rw [Nat.add_zero]; exact h2
        · rw [Nat.add_zero]; exact h1
      · refine Or.inr ⟨hu, i + 1, ?_, ?_, ?_⟩
        · rw [show c + (i + 1) = c + 1 + i by omega]; exact h2
        · rw [show c + (i + 1) = c + 1 + i by omega]; exact h3
        · intro j hj
          cases j with
          | zero => rw [Nat.add_zero]; exact h1
          | succ j' =>
            rw [show c + (j' + 1) = c + 1 + j' by omega]
            exact h4 j' (by omega)
    · simp only [uniqueLoop, hu, Bool.false_eq_true, if_false, Option.some.injEq] at h
      exact Or.inl ⟨by simpa using hu, h.symm⟩

theorem uniqueLoop_complete (fs : FS) (dir b e : String) :
    ∀ (fuel c : Nat) (u : String) (i : Nat), i < fuel →
      fs.pexists u = true →
      (∀ j < i, fs.pexists (dir ++ "/" ++ numberedVariant b e (c + j)) = true) →
      fs.pexists (dir ++ "/" ++ numberedVariant b e (c + i)) = false →
      uniqueLoop fs dir b e fuel c u = some (dir ++ "/" ++ numberedVariant b e (c + i)) := by
  intro fuel
  induction fuel with
  | zero => intro c u i hi; exact absurd hi (Nat.not_lt_zero i)
  | succ n ih =>
    intro c u i hi hu hall hnone
    simp only [uniqueLoop, hu, if_true]
    cases i with
    | zero =>
      rw [Nat.add_zero] at hnone ⊢
      exact uniqueLoop_some_not_exists fs dir b e _ n (c + 1) hnone
    | succ i' =>
      have h0 : fs.pexists (dir ++ "/" ++ numberedVariant b e c) = true := by
        have := hall 0 (by omega)
        rwa [Nat.add_zero] at this
      rw [show c + (i' + 1) = c + 1 + i' by omega] at hnone ⊢
      exact ih (c + 1) _ i' (by omega) h0
        (fun j hj => by
          have := hall (j + 1) (by omega)
          rwa [show c + (j + 1) = c + 1 + j by omega] at this)
        hnone

/-- C6: `get_unique_filename` sanitizes the requested name and walks the
candidates unsuffixed, `_1`, `_2`, … in order: any returned path is the
first candidate that does not exist, and conversely the first non-existing
candidate (reachable within the fuel) is returned. -/
theorem c6_unique_filename_first_free (fs : FS) (dir fn : String) (fuel : Nat) :
    (∀ res, get_unique_filename fs dir fn fuel = some res →
       ∃ k, res = uniqueCand dir fn k
           ∧ fs.pexists (uniqueCand dir fn k) = false
           ∧ ∀ j < k, fs.pexists (uniqueCand dir fn j) = true)
    ∧ (∀ k, k ≤ fuel → fs.pexists (uniqueCand dir fn k) = false →
        (∀ j < k, fs.pexists (uniqueCand dir fn j) = true) →
        get_unique_filename fs dir fn fuel = some (uniqueCand dir fn k)) := by
  have hg : get_unique_filename fs dir fn fuel
      = uniqueLoop fs dir (splitext (sanitize_filename fn)).1 (splitext (sanitize_filename fn)).2
          fuel 1 (dir ++ "/" ++ sanitize_filename fn) := rfl
  have hc0 : uniqueCand dir fn 0 = dir ++ "/" ++ sanitize_filename fn := rfl
  have hcs : ∀ k, uniqueCand dir fn (k + 1)
      = dir ++ "/" ++ numberedVariant (splitext (sanitize_filename fn)).1
          (splitext (sanitize_filename fn)).2 (k + 1) := fun _ => rfl
  constructor
  · intro res h
    rw [hg] at h
    rcases uniqueLoop_sound fs dir _ _ fuel 1 _ res h with ⟨h1, h2⟩ | ⟨h1, i, h2, h3, h4⟩
    · exact ⟨0, by rw [hc0, h2], by rw [hc0]; exact h1, by omega⟩
    · refine ⟨i + 1, ?_, ?_, ?_⟩
      · rw [Nat.add_comm 1 i] at h2
        rw [hcs i]
        exact h2
      · rw [Nat.add_comm 1 i] at h3
        rw [hcs i]
        exact h3
      · intro j hj
        cases j with
        | zero =>
          rw [hc0]
          exact h1
        | succ j' =>
          have hx := h4 j' (by omega)
          rw [Nat.add_comm 1 j'] at hx
          rw [hcs j']
          exact hx
  · intro k hk hnone hall
    rw [hg]
    cases k with
    | zero =>
      rw [hc0] at hnone ⊢
      exact uniqueLoop_some_not_exists fs dir _ _ _ fuel 1 hnone
    | succ k' =>
      rw [hcs k'] at hnone ⊢
      rw [show (k' + 1 : Nat) = 1 + k' from by omega] at hnone ⊢
      refine uniqueLoop_complete fs dir _ _ fuel 1 _ k' (by omega) ?_ ?_ hnone
      · have hx := hall 0 (by omega)
        rw [hc0] at hx
        exact hx
      · intro j hj
        have hx := hall (j + 1) (by omega)
        rw [hcs j] at hx
        rw [show (1 + j : Nat) = j + 1 from by omega]
        exact hx

/-- C6 (witness): with `Foo_2024-01-01_00-00-00.mp4` already present, the
first free candidate is the `_1` variant. -/
theorem c6_unique_filename_first_free_witness :
    get_unique_filename ⟨[], ["out/Foo_2024-01-01_00-00-00.mp4"]⟩ "out"
        "Foo_2024-01-01_00-00-00.mp4" 3
      = some (uniqueCand "out" "Foo_2024-01-01_00-00-00.mp4" 1) :=
  (c6_unique_filename_first_free ⟨[], ["out/Foo_2024-01-01_00-00-00.mp4"]⟩ "out"
      "Foo_2024-01-01_00-00-00.mp4" 3).2 1 (by omega) (by decide)
    (fun j hj => by
      have hj0 : j = 0 := by omega
      subst hj0
      decide)

theorem collapseOnce_mem : ∀ (cs : List Char) (c : Char), c ∈ collapseOnce cs → c ∈ cs
  | [], c => by simp [collapseOnce]
  | [a], c => by simp [collapseOnce]
  | a :: b :: t, c => by
    simp only [collapseOnce]
    split
    · rename_i hab
      intro h
      rcases List.mem_cons.1 h with h | h
      · have hab' := hab
        rw [Bool.and_eq_true] at hab'
        have ha : a = '_' := by simpa using hab'.1
        subst h
        exact List.mem_cons.2 (Or.inl ha.symm)
      · exact List.mem_cons.2 (Or.inr (List.mem_cons.2 (Or.inr (collapseOnce_mem t c h))))
    · intro h
      rcases List.mem_cons.1 h with h | h
      · exact List.mem_cons.2 (Or.inl h)
      · exact List.mem_cons.2 (Or.inr (collapseOnce_mem (b :: t) c h))

theorem collapseOnce_length_le : ∀ cs : List Char, (collapseOnce cs).length ≤ cs.length
  | [] => by simp [collapseOnce]
  | [a] => by simp [collapseOnce]
  | a :: b :: t => by
    simp only [collapseOnce]
    split
    · have := collapseOnce_length_le t
      simp only [List.length_cons]
      omega
    · have := collapseOnce_length_le (b :: t)
      simp only [List.length_cons] at this ⊢
      omega

theorem collapseOnce_length_lt :
    ∀ cs : List Char, hasDD cs = true → (collapseOnce cs).length < cs.length
  | [] => by simp [hasDD]
  | [a] => by simp [hasDD]
  | a :: b :: t => by
    intro h
    simp only [collapseOnce]
    split
    · have := collapseOnce_length_le t
      simp only [List.length_cons]
      omega
    · rename_i hab
      have h' : hasDD (b :: t) = true := by
        simp only [hasDD, Bool.or_eq_true] at h
        rcases h with h | h
        · exact absurd h hab
        · exact h
      have := collapseOnce_length_lt (b :: t) h'
      simp only [List.length_cons] at this ⊢
      omega

theorem collapseAll_noDD : ∀ (fuel : Nat) (cs : List Char),
    cs.length ≤ fuel → hasDD (collapseAll fuel cs) = false := by
  intro fuel
  induction fuel with
  | zero =>
    intro cs h
    have hnil : cs = [] := List.eq_nil_of_length_eq_zero (by omega)
    subst hnil
    rfl
  | succ n ih =>
    intro cs h
    simp only [collapseAll]
    by_cases hd : hasDD cs = true
    · rw [if_pos hd]
      exact ih _ (by have := collapseOnce_length_lt cs hd; omega)
    · rw [if_neg hd]
      simpa using hd

theorem collapseAll_mem : ∀ (fuel : Nat) (cs : List Char) (c : Char),
    c ∈ collapseAll fuel cs → c ∈ cs := by
  intro fuel
  induction fuel with
  | zero => intro cs c h; exact h
  | succ n ih =>
    intro cs c h
    simp only [collapseAll] at h
    by_cases hd : hasDD cs = true
    · rw [if_pos hd] at h
      exact collapseOnce_mem cs c (ih _ c h)
    · rwa [if_neg hd] at h

theorem hasDD_append_left : ∀ (x t : List Char), hasDD x = true → hasDD (x ++ t) = true
  | [], t => by simp [hasDD]
  | [a], t => by simp [hasDD]
  | a :: b :: u, t => by
    intro h
    simp only [hasDD, Bool.or_eq_true] at h ⊢
    rcases h with h | h
    · exact Or.inl h
    · exact Or.inr (by simpa using hasDD_append_left (b :: u) t h)

theorem hasDD_tail_false {a : Char} {t : List Char} (h : hasDD (a :: t) = false) :
    hasDD t = false := by
  cases t with
  | nil => rfl
  | cons b u =>
    simp only [hasDD, Bool.or_eq_false_iff] at h
    exact h.2

theorem dropWhileUnd_noDD : ∀ cs : List Char, hasDD cs = false →
    hasDD (cs.dropWhile (fun c => c == '_')) = false
  | [], _ => rfl
  | c :: t, h => by
    simp only [List.dropWhile_cons]
    by_cases hc : (c == '_') = true
    · rw [if_pos hc]
      exact dropWhileUnd_noDD t (hasDD_tail_false h)
    · rw [if_neg hc]
      exact h

theorem dropWhileUnd_mem {cs : List Char} {c : Char}
    (h : c ∈ cs.dropWhile (fun x => x == '_')) : c ∈ cs :=
  (List.dropWhile_suffix _).subset h

theorem dropTrailingUnd_isPrefix : ∀ cs : List Char, ∃ t, cs = dropTrailingUnd cs ++ t
  | [] => ⟨[], rfl⟩
  | c :: rest => by
    simp only [dropTrailingUnd]
    rcases dropTrailingUnd_isPrefix rest with ⟨t, ht⟩
    by_cases hc : ((dropTrailingUnd rest).isEmpty && c == '_') = true
    · rw [if_pos hc]
      exact ⟨c :: rest, rfl⟩
    · rw [if_neg hc]
      exact ⟨t, by rw [List.cons_append, ← ht]⟩

theorem dropTrailingUnd_noDD (cs : List Char) (h : hasDD cs = false) :
    hasDD (dropTrailingUnd cs) = false := by
  rcases dropTrailingUnd_isPrefix cs with ⟨t, ht⟩
  by_cases hd : hasDD (dropTrailingUnd cs) = true
  · rw [ht] at h
    rw [hasDD_append_left _ t hd] at h
    cases h
  · simpa using hd

theorem dropTrailingUnd_mem : ∀ (cs : List Char) (c : Char),
    c ∈ dropTrailingUnd cs → c ∈ cs := by
  intro cs c h
  rcases dropTrailingUnd_isPrefix cs with ⟨t, ht⟩
  rw [ht]
  exact List.mem_append.2 (Or.inl h)

theorem dropTrailingUnd_getLast_ne : ∀ (cs : List Char),
    (dropTrailingUnd cs).getLast? ≠ some '_'
  | [] => by simp [dropTrailingUnd]
  | c :: rest => by
    simp only [dropTrailingUnd]
    by_cases hc : ((dropTrailingUnd rest).isEmpty && c == '_') = true
    · rw [if_pos hc]
      simp
    · rw [if_neg hc]
      cases hr : dropTrailingUnd rest with
      | nil =>
        have hcu : (c == '_') = false := by
          by_contra hx
          apply hc
          rw [hr]
          simp only [Bool.not_eq_false] at hx
          simp [hx]
        simp only [List.getLast?_singleton, ne_eq, Option.some.injEq]
        intro hx
        rw [hx] at hcu
        simp at hcu
      | cons b u =>
        rw [List.getLast?_cons_cons]
        have hprev := dropTrailingUnd_getLast_ne rest
        rwa [hr] at hprev

theorem dropWhileUnd_head_ne : ∀ cs : List Char,
    (cs.dropWhile (fun c => c == '_')).head? ≠ some '_'
  | [] => by simp
  | c :: t => by
    simp only [List.dropWhile_cons]
    by_cases hc : (c == '_') = true
    · rw [if_pos hc]
      exact dropWhileUnd_head_ne t
    · rw [if_neg hc]
      simp only [List.head?_cons, ne_eq, Option.some.injEq]
      intro hx
      rw [hx] at hc
      simp at hc

theorem dropTrailingUnd_head? (cs : List Char) (c : Char)
    (h : (dropTrailingUnd cs).head? = some c) : cs.head? = some c := by
  rcases dropTrailingUnd_isPrefix cs with ⟨t, ht⟩
  rw [ht]
  cases hr : dropTrailingUnd cs with
  | nil => rw [hr] at h; simp at h
  | cons a r' =>
    rw [hr] at h
    simp only [List.head?_cons, Option.some.injEq] at h
    subst h
    rfl

theorem stripUnd_noDD (cs : List Char) (h : hasDD cs = false) :
    hasDD (stripUnd cs) = false :=
  dropTrailingUnd_noDD _ (dropWhileUnd_noDD cs h)

theorem stripUnd_mem {cs : List Char} {c : Char} (h : c ∈ stripUnd cs) : c ∈ cs :=
  dropWhileUnd_mem (dropTrailingUnd_mem _ c h)

theorem stripUnd_head_ne (cs : List Char) : (stripUnd cs).head? ≠ some '_' := by
  intro h
  exact dropWhileUnd_head_ne cs (dropTrailingUnd_head? _ _ h)

theorem stripUnd_getLast_ne (cs : List Char) : (stripUnd cs).getLast? ≠ some '_' :=
  dropTrailingUnd_getLast_ne _

theorem foldl_replaceChar_eq_map : ∀ (L : List Char), L.contains '_' = false →
    ∀ cs : List Char,
      L.foldl (fun s c => replaceChar c '_' s) cs
        = cs.map (fun c => if L.contains c then '_' else c) := by
  intro L
  induction L with
  | nil =>
    intro _ cs
    simp [replaceChar]
  | cons a L' ih =>
    intro h cs
    have hh := h
    simp only [List.contains_cons, Bool.or_eq_false_iff] at hh
    simp only [List.foldl_cons]
    rw [ih hh.2 (replaceChar a '_' cs)]
    unfold replaceChar
    rw [List.map_map]
    apply List.map_congr_left
    intro c _
    simp only [Function.comp_apply]
    by_cases hca : (c == a) = true
    · rw [if_pos hca]
      have : L'.contains '_' = false := hh.2
      simp only [this, List.contains_cons, hca, Bool.true_or, if_true, if_false,
        Bool.false_eq_true]
    · rw [if_neg hca]
      simp only [List.contains_cons, hca, Bool.false_or]

theorem replaceInvalid_no_invalid (cs : List Char) :
    ∀ c ∈ replaceInvalid cs, invalidChars.contains c = false := by
  unfold replaceInvalid
  rw [foldl_replaceChar_eq_map invalidChars (by decide) cs]
  intro c hc
  rcases List.mem_map.1 hc with ⟨x, _, hfx⟩
  by_cases hx : invalidChars.contains x = true
  · rw [if_pos hx] at hfx
    rw [← hfx]
    decide
  · rw [if_neg hx] at hfx
    rw [← hfx]
    simpa using hx

/-- C7: `sanitize_filename` replaces every character of `<>:"|?*\\/ ` by
`'_'`, collapses runs of underscores and strips them from both ends: the
result contains no forbidden character, no two adjacent underscores, and
neither starts nor ends with an underscore. -/
theorem c7_sanitize_no_invalid_no_runs (s : String) :
    (sanitize_filename s).data.any (fun c => invalidChars.contains c) = false
    ∧ hasDD (sanitize_filename s).data = false
    ∧ ((sanitize_filename s).data.head? == some '_') = false
    ∧ ((sanitize_filename s).data.getLast? == some '_') = false := by
  have hdata : (sanitize_filename s).data
      = stripUnd (collapseAll (replaceInvalid s.data).length (replaceInvalid s.data)) := rfl
  refine ⟨?_, ?_, ?_, ?_⟩
  · rw [hdata, List.any_eq_false]
    intro c hc
    have hmem : c ∈ replaceInvalid s.data :=
      collapseAll_mem _ _ c (stripUnd_mem hc)
    simpa using replaceInvalid_no_invalid s.data c hmem
  · rw [hdata]
    exact stripUnd_noDD _ (collapseAll_noDD _ _ le_rfl)
  · rw [hdata, beq_eq_false_iff_ne]
    exact stripUnd_head_ne _
  · rw [hdata, beq_eq_false_iff_ne]
    exact stripUnd_getLast_ne _

theorem aggregateOutcomes_size :
    ∀ l, (aggregateOutcomes l).successful.length + (aggregateOutcomes l).failed.length
          = (aggregateOutcomes l).total
        ∧ (aggregateOutcomes l).total = l.length := by
  intro l
  induction l with
  | nil => simp [aggregateOutcomes]
  | cons x rest ih =>
    obtain ⟨c, r⟩ := x
    rcases r with e | ⟨b, m⟩
    · simp only [aggregateOutcomes, List.length_cons]
      omega
    · cases b <;> simp only [aggregateOutcomes, List.length_cons] <;> omega

theorem aggregateOutcomes_successful_subset :
    ∀ (l : List (String × Except String (Bool × String))) (c : String),
      c ∈ (aggregateOutcomes l).successful → c ∈ l.map Prod.fst := by
  intro l
  induction l with
  | nil => intro c h; simp [aggregateOutcomes] at h
  | cons x rest ih =>
    obtain ⟨a, r⟩ := x
    intro c h
    rcases r with e | ⟨b, m⟩
    · simp only [aggregateOutcomes] at h
      exact List.mem_cons.2 (Or.inr (ih c h))
    · cases b with
      | false =>
        simp only [aggregateOutcomes] at h
        exact List.mem_cons.2 (Or.inr (ih c h))
      | true =>
        simp only [aggregateOutcomes] at h
        rcases List.mem_cons.1 h with h | h
        · exact List.mem_cons.2 (Or.inl h)
        · exact List.mem_cons.2 (Or.inr (ih c h))

theorem aggregateOutcomes_failed_subset :
    ∀ (l : List (String × Except String (Bool × String))) (p : String × String),
      p ∈ (aggregateOutcomes l).failed → p.1 ∈ l.map Prod.fst := by
  intro l
  induction l with
  | nil => intro p h; simp [aggregateOutcomes] at h
  | cons x rest ih =>
    obtain ⟨a, r⟩ := x
    intro p h
    rcases r with e | ⟨b, m⟩
    · simp only [aggregateOutcomes] at h
      rcases List.mem_cons.1 h with h | h
      · rw [h]
        exact List.mem_cons.2 (Or.inl rfl)
      · exact List.mem_cons.2 (Or.inr (ih p h))
    · cases b with
      | false =>
        simp only [aggregateOutcomes] at h
        rcases List.mem_cons.1 h with h | h
        · rw [h]
          exact List.mem_cons.2 (Or.inl rfl)
        · exact List.mem_cons.2 (Or.inr (ih p h))
      | true =>
        simp only [aggregateOutcomes] at h
        exact List.mem_cons.2 (Or.inr (ih p h))

theorem aggregateOutcomes_disjoint :
    ∀ (l : List (String × Except String (Bool × String))),
      (l.map Prod.fst).Nodup →
      ∀ p ∈ (aggregateOutcomes l).failed, p.1 ∉ (aggregateOutcomes l).successful := by
  intro l
  induction l with
  | nil => intro _ p h; simp [aggregateOutcomes] at h
  | cons x rest ih =>
    obtain ⟨a, r⟩ := x
    intro hnd p hp
    simp only [List.map_cons, List.nodup_cons] at hnd
    rcases r with e | ⟨b, m⟩
    · simp only [aggregateOutcomes] at hp ⊢
      rcases List.mem_cons.1 hp with h | h
      · intro hmem
        rw [h] at hmem
        exact hnd.1 (aggregateOutcomes_successful_subset rest a hmem)
      · exact ih hnd.2 p h
    · cases b with
      | false =>
        simp only [aggregateOutcomes] at hp ⊢
        rcases List.mem_cons.1 hp with h | h
        · intro hmem
          rw [h] at hmem
          exact hnd.1 (aggregateOutcomes_successful_subset rest a hmem)
        · exact ih hnd.2 p h
      | true =>
        simp only [aggregateOutcomes] at hp ⊢
        intro hmem
        rcases List.mem_cons.1 hmem with h | h
        · rw [← h] at hnd
          exact hnd.1 (aggregateOutcomes_failed_subset rest p hp)
        · exact ih hnd.2 p hp h

theorem deleteLoop_deleted_subset :
    ∀ (fs : FS) (l : List String) (c : String), c ∈ (deleteLoop fs l).2.2 → c ∈ l := by
  intro fs l
  induction l generalizing fs with
  | nil => intro c h; simp [deleteLoop] at h
  | cons a rest ih =>
    intro c h
    simp only [deleteLoop] at h
    by_cases hd : (delete_source_folder fs a).2 = true
    · rw [if_pos hd] at h
      rcases List.mem_cons.1 h with h | h
      · exact List.mem_cons.2 (Or.inl h)
      · exact List.mem_cons.2 (Or.inr (ih _ c h))
    · rw [if_neg hd] at h
      exact List.mem_cons.2 (Or.inr (ih _ c h))

theorem deleteLoop_events :
    ∀ (fs : FS) (l : List String), (deleteLoop fs l).2.1 = l.map Event.delSource := by
  intro fs l
  induction l generalizing fs with
  | nil => rfl
  | cons a rest ih => simp only [deleteLoop, List.map_cons, ih]

theorem batchDeletePhase_deleted_subset (fs : FS) (res : BatchResult) (dsrc : Bool) :
    ∀ c ∈ (batchDeletePhase fs res dsrc).2.2, c ∈ res.successful := by
  unfold batchDeletePhase
  by_cases h : (dsrc && !res.successful.isEmpty) = true
  · rw [if_pos h]
    exact fun c hc => deleteLoop_deleted_subset fs res.successful c hc
  · rw [if_neg h]
    intro c hc
    simp at hc

/-- C3 (amended): for every list of submitted clips with arbitrary synthetic
per-task outcomes, `successful.size + failed.size = total` with `total` the
number of submitted clips, and the deferred deletion pass only ever deletes
folders of clips in `successful`; when the submitted clip paths are
pairwise distinct it therefore never deletes the folder of a clip in
`failed`. -/
theorem c3_batch_invariant_amended
    (l : List (String × Except String (Bool × String))) (fs : FS) (dsrc : Bool) :
    (aggregateOutcomes l).successful.length + (aggregateOutcomes l).failed.length
      = (aggregateOutcomes l).total
    ∧ (aggregateOutcomes l).total = l.length
    ∧ ((batchDeletePhase fs (aggregateOutcomes l) dsrc).2.2).all
        (fun c => (aggregateOutcomes l).successful.contains c) = true
    ∧ ((l.map Prod.fst).Nodup →
        (aggregateOutcomes l).failed.all
          (fun p => !((batchDeletePhase fs (aggregateOutcomes l) dsrc).2.2.contains p.1))
          = true) := by
  refine ⟨(aggregateOutcomes_size l).1, (aggregateOutcomes_size l).2, ?_, ?_⟩
  · rw [List.all_eq_true]
    intro c hc
    exact List.elem_eq_true_of_mem
      (batchDeletePhase_deleted_subset fs (aggregateOutcomes l) dsrc c hc)
  · intro hnd
    rw [List.all_eq_true]
    intro p hp
    have hnot : p.1 ∉ (aggregateOutcomes l).successful :=
      aggregateOutcomes_disjoint l hnd p hp
    have hnotdel : p.1 ∉ (batchDeletePhase fs (aggregateOutcomes l) dsrc).2.2 := by
      intro hdel
      exact hnot (batchDeletePhase_deleted_subset fs (aggregateOutcomes l) dsrc p.1 hdel)
    simp only [Bool.not_eq_true']
    by_cases hcon : (batchDeletePhase fs (aggregateOutcomes l) dsrc).2.2.contains p.1 = true
    · exact absurd (List.mem_of_elem_eq_true hcon) hnotdel
    · simpa using hcon

/-- C3 (witness): the amended invariant at a concrete two-clip batch with
distinct paths, one success and one failure. -/
theorem c3_batch_invariant_amended_witness :
    (aggregateOutcomes [("A", .ok (true, "ok")), ("B", .ok (false, "err"))]).successful.length
        + (aggregateOutcomes [("A", .ok (true, "ok")), ("B", .ok (false, "err"))]).failed.length
      = (aggregateOutcomes [("A", .ok (true, "ok")), ("B", .ok (false, "err"))]).total
    ∧ (aggregateOutcomes [("A", .ok (true, "ok")), ("B", .ok (false, "err"))]).total = 2
    ∧ ((batchDeletePhase ⟨["A", "B"], ["A/session.mpd"]⟩
          (aggregateOutcomes [("A", .ok (true, "ok")), ("B", .ok (false, "err"))]) true).2.2).all
        (fun c =>
          (aggregateOutcomes [("A", .ok (true, "ok")), ("B", .ok (false, "err"))]).successful.contains c)
        = true
    ∧ (aggregateOutcomes [("A", .ok (true, "ok")), ("B", .ok (false, "err"))]).failed.all
        (fun p =>
          !((batchDeletePhase ⟨["A", "B"], ["A/session.mpd"]⟩
              (aggregateOutcomes [("A", .ok (true, "ok")), ("B", .ok (false, "err"))]) true).2.2.contains p.1))
        = true := by
  have h := c3_batch_invariant_amended
    [("A", .ok (true, "ok")), ("B", .ok (false, "err"))] ⟨["A", "B"], ["A/session.mpd"]⟩ true
  exact ⟨h.1, h.2.1, h.2.2.1, h.2.2.2 (by decide)⟩

theorem psc_events_cases (fs : FS) (r : String → String) (tc : Transcoder)
    (clip out : String) (dsrc : Bool) (fuel : Nat) :
    (process_single_clip fs r tc clip out dsrc fuel).events = []
    ∨ ((process_single_clip fs r tc clip out dsrc fuel).events = [Event.delSource clip]
       ∧ (process_single_clip fs r tc clip out dsrc fuel).ok = true) := by
  cases hc : check_converted_exists fs r clip out with
  | some e =>
    simp only [process_single_clip, hc]
    cases dsrc with
    | false => exact Or.inl rfl
    | true =>
      by_cases hd : (delete_source_folder fs clip).2 = true
      · rw [if_pos hd]
        exact Or.inr ⟨rfl, rfl⟩
      · rw [if_neg hd]
        exact Or.inr ⟨rfl, rfl⟩
  | none =>
    simp only [process_single_clip, hc]
    refine Or.inl ?_
    split
    · rfl
    · split
      · rfl
      · split
        · rfl
        · split
          · rfl
          · split
            · rfl
            · split
              · rfl
              · split
                · rfl
                · rfl

theorem psc_no_del_of_not_dsrc (fs : FS) (r : String → String) (tc : Transcoder)
    (clip out : String) (fuel : Nat) :
    (process_single_clip fs r tc clip out false fuel).events = [] := by
  cases hc : check_converted_exists fs r clip out with
  | some e => simp [process_single_clip, hc]
  | none =>
    simp only [process_single_clip, hc]
    split
    · rfl
    · split
      · rfl
      · split
        · rfl
        · split
          · rfl
          · split
            · rfl
            · split
              · rfl
              · split
                · rfl
                · rfl

theorem runTasksLoop_del_in_successful (r : String → String) (tc : Transcoder)
    (out : String) (dsrc : Bool) (fuel : Nat) :
    ∀ (ordered : List String) (fs : FS) (x : String),
      Event.delSource x ∈ (runTasksLoop r tc out dsrc fuel fs ordered).2.1 →
      x ∈ (runTasksLoop r tc out dsrc fuel fs ordered).2.2.1 := by
  intro ordered
  induction ordered with
  | nil => intro fs x h; simp [runTasksLoop] at h
  | cons c rest ih =>
    intro fs x h
    simp only [runTasksLoop] at h ⊢
    rcases List.mem_append.1 h with h | h
    · rcases psc_events_cases fs r tc c out dsrc fuel with h0 | ⟨h1, h2⟩
      · rw [h0] at h
        simp at h
      · rw [h1] at h
        have hx : x = c := by simpa using h
        rw [hx, h2, if_pos rfl]
        exact List.mem_cons_self _ _
    · rcases List.mem_cons.1 h with h | h
      · simp at h
      · have hmem := ih (process_single_clip fs r tc c out dsrc fuel).fs x h
        by_cases hok : (process_single_clip fs r tc c out dsrc fuel).ok = true
        · rw [if_pos hok]
          exact List.mem_cons.2 (Or.inr hmem)
        · rw [if_neg hok]
          exact hmem

theorem runTasksLoop_no_del_of_not_dsrc (r : String → String) (tc : Transcoder)
    (out : String) (fuel : Nat) :
    ∀ (ordered : List String) (fs : FS) (x : String),
      Event.delSource x ∈ (runTasksLoop r tc out false fuel fs ordered).2.1 → False := by
  intro ordered
  induction ordered with
  | nil => intro fs x h; simp [runTasksLoop] at h
  | cons c rest ih =>
    intro fs x h
    simp only [runTasksLoop] at h
    rcases List.mem_append.1 h with h | h
    · rw [psc_no_del_of_not_dsrc fs r tc c out fuel] at h
      simp at h
    · rcases List.mem_cons.1 h with h | h
      · simp at h
      · exact ih _ x h

theorem batchBarrier_append (T : List Event) (su : List String)
    (hT : ∀ x, Event.delSource x ∈ T → x ∈ su) :
    batchBarrier (T ++ su.map Event.delSource) su = true := by
  unfold batchBarrier
  have hk : (T ++ su.map Event.delSource).length - su.length = T.length := by
    simp [List.length_append]
  rw [hk, List.drop_left, List.take_left]
  simp only [Bool.and_eq_true]
  constructor
  · simp
  · rw [List.all_eq_true]
    intro e he
    cases e with
    | convReturn _ => rfl
    | delSource x => exact List.elem_eq_true_of_mem (hT x he)

/-- C1 (amended): the batch-level deletion pass runs strictly after every
conversion task of the batch has returned, as the trailing block of the
trace, computed from the final `successful` list; every earlier deletion
event is the in-task deletion of an already-converted clip, whose clip
always ends up in `successful`.  (With `delete_source` unset there are no
deletion events at all.) -/
theorem c1_batch_barrier_amended (r : String → String) (tc : Transcoder)
    (out : String) (dsrc : Bool) (fuel : Nat) (fs : FS) (ordered : List String) :
    batchBarrier (process_clips_batch r tc out dsrc fuel fs ordered).2.1
      (if dsrc then (process_clips_batch r tc out dsrc fuel fs ordered).2.2.successful
       else []) = true := by
  unfold process_clips_batch
  by_cases h : (dsrc
      && !(runTasksLoop r tc out dsrc fuel (fs.addDir out) ordered).2.2.1.isEmpty) = true
  · rw [if_pos h]
    have h' := h
    rw [Bool.and_eq_true] at h'
    obtain ⟨hdsrc, _⟩ := h'
    subst hdsrc
    simp only [if_true, deleteLoop_events]
    exact batchBarrier_append _ _
      (fun x hx => runTasksLoop_del_in_successful r tc out true fuel ordered _ x hx)
  · rw [if_neg h]
    cases hdsrc : (dsrc : Bool) with
    | false =>
      simp only [Bool.false_eq_true, if_false]
      have hT := batchBarrier_append
        (runTasksLoop r tc out false fuel (fs.addDir out) ordered).2.1 []
        (fun x hx =>
          absurd (runTasksLoop_no_del_of_not_dsrc r tc out fuel ordered _ x hx) not_false)
      simpa using hT
    | true =>
      rw [hdsrc] at h
      have hsu : (runTasksLoop r tc out true fuel (fs.addDir out) ordered).2.2.1.isEmpty
          = true := by
        simpa using h
      have hnil : (runTasksLoop r tc out true fuel (fs.addDir out) ordered).2.2.1 = [] :=
        List.isEmpty_iff.1 hsu
      simp only [if_true, hnil]
      have hT := batchBarrier_append
        (runTasksLoop r tc out true fuel (fs.addDir out) ordered).2.1 []
        (fun x hx => by
          have hm := runTasksLoop_del_in_successful r tc out true fuel ordered (fs.addDir out) x hx
          rw [hnil] at hm
          exact hm)
      simpa using hT
